import Mathlib

/-!
Verification development for the commit-and-push core of `code-suggester`
(`src/github/commit-and-push.ts`, `src/github/create-commit.ts`,
`src/types/index.ts`).

The remote git object store is content-addressed and write-only in this code,
so the embedding identifies an object id (oid) with the object it names:
`git.writeBlob` on some bytes yields the blob object itself, `git.writeTree`
on a listing yields the tree object itself, and `git.readTree` on a tree
object returns its listing.  A commit id is likewise identified with the
commit object, so `octokit.git.getCommit(sha).tree` is the `tree` field of
the commit value.  Remote-transport failures (network/auth) of the external
store are not modelled; the deterministic failure the code itself produces
(`Buffer.from(undefined)` on a deletion entry, see `JsContent.undef` below)
is modelled exactly.
-/

namespace CodeSuggester

/-- The `FileMode` union type of `src/types/index.ts`:
`'100644' | '100755' | '040000' | '160000' | '120000'`. -/
inductive FileMode where
  | m100644
  | m100755
  | m040000
  | m160000
  | m120000
deriving DecidableEq, Repr

/-- The `type` field of a GitHub/isomorphic-git tree entry: `'blob' | 'tree' | 'commit'`. -/
inductive EType where
  | blob
  | tree
  | commit
deriving DecidableEq, Repr

/-- `mode2type$1` from `commit-and-push.ts`: maps a git file mode to the
entry kind.  The `throw` branch for an unexpected mode is unreachable because
`FileMode` is exactly the five legal modes. -/
def mode2type (mode : FileMode) : EType :=
  match mode with
  | .m040000 => .tree
  | .m100644 => .blob
  | .m100755 => .blob
  | .m120000 => .blob
  | .m160000 => .commit

/-- A JavaScript `string`-or-`null`-or-absent value, as needed for the
`content` property of a `TreeObject`.  `generateTreeObjects` builds deletion
entries *without* a `content` property (so reading it gives `undefined`),
while `updateTreeRecursively` tests `fileData.content === null`; the
three-way distinction is therefore semantically relevant. -/
inductive JsContent where
  | undef
  | null
  | str (s : String)
deriving DecidableEq, Repr

mutual
/-- A git object in the content-addressed store: an oid is identified with
the object it names.  `commitRef` is the target of a gitlink/submodule
entry, which this code never dereferences, so it stays an opaque id. -/
inductive GitObj where
  | blob (content : String) : GitObj
  | commitRef (oid : String) : GitObj
  | tree (entries : List TreeEnt) : GitObj

/-- An isomorphic-git `TreeEntry`: `{mode, path, oid, type}`.  `path` is the
name segment at one directory level; `obj` is the object the `oid` field
names. -/
inductive TreeEnt where
  | mk (mode : FileMode) (path : String) (type : EType) (obj : GitObj) : TreeEnt
end

def TreeEnt.mode : TreeEnt → FileMode
  | .mk m _ _ _ => m

def TreeEnt.path : TreeEnt → String
  | .mk _ p _ _ => p

def TreeEnt.type : TreeEnt → EType
  | .mk _ _ t _ => t

def TreeEnt.obj : TreeEnt → GitObj
  | .mk _ _ _ o => o

/-- The listing of a tree object; `git.readTree` on a non-tree object fails
in isomorphic-git, a situation no well-formed store reaches (every entry the
code checks with `type === 'tree'` before reading carries a tree object). -/
def objEntries : GitObj → List TreeEnt
  | .tree entries => entries
  | _ => []

/-- The `FileData` class of `src/types/index.ts`: `content : string | null`
(`none` is JavaScript `null`, the deletion marker) and a `FileMode`. -/
structure FileData where
  mode : FileMode
  content : Option String
deriving DecidableEq, Repr

/-- The `TreeObject` interface of `src/types/index.ts`.
`sha`: `none` = property absent, `some none` = `null`. -/
structure TreeObject where
  path : String
  mode : FileMode
  type : EType
  sha : Option (Option String)
  content : JsContent
deriving DecidableEq, Repr

/-- `generateTreeObjects` from `commit-and-push.ts`: one `TreeObject` per
change, in iteration order of the `Changes` map (modelled as an association
list).  A `null` content produces `{path, mode, type, sha: null}` — note the
`content` property is *absent* (`JsContent.undef`), not `null`. -/
def generateTreeObjects (changes : List (String × FileData)) : List TreeObject :=
  changes.map (fun c =>
    match c.2.content with
    | none =>
      { path := c.1, mode := c.2.mode, type := mode2type c.2.mode,
        sha := some none, content := JsContent.undef }
    | some s =>
      { path := c.1, mode := c.2.mode, type := mode2type c.2.mode,
        sha := none, content := JsContent.str s })

/-- JavaScript `String.prototype.split('/')` on the list of characters:
`""` splits to `[""]`, separators at the ends produce empty segments. -/
def splitSegs : List Char → List (List Char)
  | [] => [[]]
  | c :: cs =>
    if c = '/' then [] :: splitSegs cs
    else
      match splitSegs cs with
      | seg :: rest => (c :: seg) :: rest
      | [] => [[c]]

/-- `fileData.path.split('/')` from `createTree`.  The result is never the
empty list (JavaScript `split` always returns at least one element). -/
def splitPath (s : String) : List String :=
  (splitSegs s.toList).map (fun cs => String.mk cs)

/-- `newTree.findIndex(entry => entry.path === part)`, with `none` for `-1`. -/
def findIndex (part : String) : List TreeEnt → Option Nat
  | [] => none
  | e :: rest =>
    if e.path = part then some 0
    else Option.map (fun i => i + 1) (findIndex part rest)

/-- `if (existingIndex !== -1) newTree[existingIndex] = newEntry; else newTree.push(newEntry)` —
the insert-or-replace step used at both the leaf and the directory level. -/
def upsert (cur : List TreeEnt) (idx : Option Nat) (e : TreeEnt) : List TreeEnt :=
  match idx with
  | some i => cur.set i e
  | none => cur ++ [e]

/-- `if (existingIndex !== -1) newTree.splice(existingIndex, 1)` — the
deletion step at the leaf level. -/
def removeAt (cur : List TreeEnt) (idx : Option Nat) : List TreeEnt :=
  match idx with
  | some i => cur.eraseIdx i
  | none => cur

/-- The sub-listing used when descending into a directory:
`if (existingIndex !== -1 && newTree[existingIndex].type === 'tree')` read the
entry's tree, `else` start from the empty listing. -/
def subTreeAt (cur : List TreeEnt) (idx : Option Nat) : List TreeEnt :=
  match idx with
  | some i =>
    match cur.get? i with
    | some e => if e.type = EType.tree then objEntries e.obj else []
    | none => []
  | none => []

/-- The error `updateTreeRecursively` itself raises: a deletion `TreeObject`
has no `content` property, `fileData.content === null` is then false
(`undefined !== null`), and `Buffer.from(fileData.content!)` =
`Buffer.from(undefined)` throws a `TypeError`. -/
inductive TreeErr where
  | bufferFromUndefined
deriving DecidableEq, Repr

/-- `updateTreeRecursively` from `commit-and-push.ts` (lines 132–205).
Recursion is on the path segments, exactly as in the source.  The `[]` case
is unreachable from `createTree` because `split('/')` never returns an empty
array; it returns the listing unchanged (for a `null` content the JavaScript
function would also return the copied listing unchanged there). -/
def updateTreeRecursively (existingTree : List TreeEnt) (pathParts : List String)
    (fileData : TreeObject) : Except TreeErr (List TreeEnt) :=
  match pathParts with
  | [] => .ok existingTree
  | part :: remainingParts =>
    let existingIndex := findIndex part existingTree
    match remainingParts with
    | [] =>
      -- leaf level: compute blobOid from fileData.content
      match fileData.content with
      | .undef => .error TreeErr.bufferFromUndefined
      | .null => .ok (removeAt existingTree existingIndex)
      | .str s =>
        .ok (upsert existingTree existingIndex
          (TreeEnt.mk fileData.mode part EType.blob (GitObj.blob s)))
    | _ :: _ =>
      -- directory level
      match updateTreeRecursively (subTreeAt existingTree existingIndex)
          remainingParts fileData with
      | .error e => .error e
      | .ok updatedSubTree =>
        .ok (upsert existingTree existingIndex
          (TreeEnt.mk FileMode.m040000 part EType.tree (GitObj.tree updatedSubTree)))

/-- The `for (const fileData of tree)` loop of `createTree`: fold the changes
over the current listing, splitting each path on `'/'`. -/
def applyChanges (currentTree : List TreeEnt) : List TreeObject → Except TreeErr (List TreeEnt)
  | [] => .ok currentTree
  | fileData :: rest =>
    match updateTreeRecursively currentTree (splitPath fileData.path) fileData with
    | .error e => .error e
    | .ok next => applyChanges next rest

/-- `const DEFAULT_FILES_PER_COMMIT = 100`. -/
def DEFAULT_FILES_PER_COMMIT : Nat := 100

/-- Recursion skeleton of `inGroupsOf`, made structural on a fuel argument so
that the definition reduces definitionally; with `fuel ≥ all.length` (as in
`inGroupsOf`, where at least one element is consumed per step) the fuel never
runs out. -/
def inGroupsOfAux {α : Type} (fuel : Nat) (all : List α) (groupSize : Nat) : List (List α) :=
  match fuel, all with
  | _, [] => []
  | 0, _ :: _ => []
  | fuel + 1, a :: rest =>
    if groupSize = 0 then []
    else (a :: rest).take groupSize :: inGroupsOfAux fuel ((a :: rest).drop groupSize) groupSize

/-- `inGroupsOf` from `commit-and-push.ts`: `for (let i = 0; i < all.length; i += groupSize) yield all.slice(i, i + groupSize)`,
i.e. an empty yield list for an empty input, otherwise the first
`groupSize`-slice followed by the groups of the rest.  For `groupSize = 0`
the JavaScript loop never terminates on a non-empty input; the model returns
`[]` there (the function is only ever called with the positive
`filesPerCommit`). -/
def inGroupsOf {α : Type} (all : List α) (groupSize : Nat) : List (List α) :=
  inGroupsOfAux all.length all groupSize

/-- A commit object.  The store is content-addressed, so a commit id is
identified with the commit value; a parent id is the parent commit value. -/
inductive CommitObj where
  | node (tree : List TreeEnt) (parents : List CommitObj) (message : String) : CommitObj

def CommitObj.tree : CommitObj → List TreeEnt
  | .node t _ _ => t

def CommitObj.parents : CommitObj → List CommitObj
  | .node _ p _ => p

def CommitObj.message : CommitObj → String
  | .node _ _ m => m

/-- `createCommit` from `create-commit.ts`: builds the commit object with the
given tree, the single parent `[refHead]` and the message.  The optional
signer, the `git.fetch` and the remote `git.commit` write are external
interactions; in the deterministic embedding the write succeeds and returns
the commit's id, i.e. the commit value itself. -/
def createCommit (refHead : CommitObj) (treeSha : List TreeEnt) (message : String) : CommitObj :=
  CommitObj.node treeSha [refHead] message

/-- The error wrapper: every failure escaping `createTree`, `createCommit`
or `updateRef` is re-thrown as `CommitError` with a message naming the step
(`"Error adding to tree: …"`, `"Error creating commit for: …"`,
`"Error updating ref …"`).  The constructor records which step the message
names.  Only `treeStep` is reachable in the deterministic embedding (the
other two steps fail only on external store/transport errors). -/
inductive CPErr where
  | treeStep (cause : TreeErr)
  | commitStep
  | refStep
deriving DecidableEq, Repr

def CPErr.isTreeStep : CPErr → Bool
  | .treeStep _ => true
  | _ => false

/-- `createTree` from `commit-and-push.ts` (lines 91–130): resolve the base
commit's tree (`getCommit` + `readTree`, here the `tree` field of the
content-addressed commit value), fold the changes over it, write the final
listing (the listing itself, content-addressed), wrapping any failure into
`CommitError("Error adding to tree: …")`. -/
def createTree (refHead : CommitObj) (tree : List TreeObject) : Except CPErr (List TreeEnt) :=
  match applyChanges refHead.tree tree with
  | .error e => .error (CPErr.treeStep e)
  | .ok treeSha => .ok treeSha

/-- The `for (const treeGroup of inGroupsOf(tree, filesPerCommit))` loop of
`commitAndPush`: each group builds a tree from the current `refHead`'s tree
and creates a commit whose sole parent is the current `refHead`, which then
becomes the new `refHead`.  Returns the commits created, in order, and the
final head (the last commit, or the initial head when there is no group). -/
def commitLoop (refHead : CommitObj) (groups : List (List TreeObject)) (commitMessage : String) :
    Except CPErr (List CommitObj × CommitObj) :=
  match groups with
  | [] => .ok ([], refHead)
  | treeGroup :: rest =>
    match createTree refHead treeGroup with
    | .error e => .error e
    | .ok treeSha =>
      match commitLoop (createCommit refHead treeSha commitMessage) rest commitMessage with
      | .error e => .error e
      | .ok (cs, final) => .ok (createCommit refHead treeSha commitMessage :: cs, final)

/-- The observable remote state around a `commitAndPush` call: the branch
references and a counter of transport pushes performed.  Blob/tree/commit
objects need no store component because they are content-addressed and
carried by the values themselves. -/
structure RefState where
  refs : List (String × CommitObj)
  pushed : Nat

/-- Write-or-add a branch reference. -/
def setRef (refs : List (String × CommitObj)) (branch : String) (head : CommitObj) :
    List (String × CommitObj) :=
  match refs with
  | [] => [(branch, head)]
  | r :: rest => if r.1 = branch then (branch, head) :: rest else r :: setRef rest branch head

/-- `updateRef` from `commit-and-push.ts` (lines 217–238): `git.writeRef` on
`refs/heads/<branch>` with the `force` flag forwarded to the store.  The
store's own acceptance check for non-forced writes is external to this
repository and is modelled as accepting; a store failure would be wrapped as
`CommitError("Error updating ref …")` (`CPErr.refStep`). -/
def updateRef (st : RefState) (branch : String) (newSha : CommitObj) (force : Bool) : RefState :=
  { st with refs := setRef st.refs branch newSha }

/-- `git.push` at the end of `commitAndPush`: the transport transmission,
observable as the push counter. -/
def gitPush (st : RefState) (force : Bool) : RefState :=
  { st with pushed := st.pushed + 1 }

/-- `commitAndPush` from `commit-and-push.ts` (lines 257–284): batch the
generated tree objects, chain one commit per batch, then update the branch
reference and push.  Returns the new remote state together with either the
wrapped error of the failing step or the list of commits created. -/
def commitAndPush (st : RefState) (refHead : CommitObj) (changes : List (String × FileData))
    (originBranch : String) (commitMessage : String) (force : Bool)
    (filesPerCommit : Option Nat) : RefState × Except CPErr (List CommitObj) :=
  let fpc := filesPerCommit.getD DEFAULT_FILES_PER_COMMIT
  let tree := generateTreeObjects changes
  match commitLoop refHead (inGroupsOf tree fpc) commitMessage with
  | .error e => (st, .error e)
  | .ok (chain, finalHead) =>
    (gitPush (updateRef st originBranch finalHead force) force, .ok chain)

/-! ### Specification predicates (the vocabulary the claims are stated in) -/

/-- First entry of a listing with the given name, the lookup a git path
resolution performs at one directory level. -/
def lookupName : List TreeEnt → String → Option TreeEnt
  | [], _ => none
  | e :: rest, n => if e.path = n then some e else lookupName rest n

/-- Read a tree at a slash-split path: resolve each segment by name,
descending through entries of kind `tree`.  The returned entry carries the
name, mode, kind and (content-addressed) object, i.e. the full observable
content at that path. -/
def readPath (es : List TreeEnt) : List String → Option TreeEnt
  | [] => none
  | n :: rest =>
    match rest with
    | [] => lookupName es n
    | _ :: _ =>
      match lookupName es n with
      | some e => if e.type = EType.tree then readPath (objEntries e.obj) rest else none
      | none => none

/-- `leadsInto c p`: the segment list `c` is an initial run of `p`. -/
def leadsInto : List String → List String → Bool
  | [], _ => true
  | _ :: _, [] => false
  | c :: cs, p :: ps => c == p && leadsInto cs ps

/-- A change at path `c` touches query path `p` iff one is an initial run of
the other (the change rewrites `p` itself, an ancestor of `p`, or lies
below `p`). -/
def touches (c p : List String) : Bool :=
  leadsInto c p || leadsInto p c

/-- The listing the builder descends into, expressed through name lookup. -/
def childListing (cur : List TreeEnt) (part : String) : List TreeEnt :=
  match lookupName cur part with
  | some e => if e.type = EType.tree then objEntries e.obj else []
  | none => []

/-- `absentThroughTrees cur parts`: the path does not exist in the listing
and its resolution fails only at the leaf — every intermediate segment names
an existing directory entry exactly as the builder itself writes directory
entries (mode `'040000'`, kind `tree`, holding a tree object), and the final
segment is absent from the listing reached.  Under this condition a
`null`-content deletion is an exact no-op: the builder rewrites each
intermediate entry to an identical entry (content-addressing makes the
rewritten sub-tree the same object). -/
def absentThroughTrees : List TreeEnt → List String → Bool
  | _, [] => true
  | cur, [n] => (findIndex n cur).isNone
  | cur, n :: rest =>
    match lookupName cur n with
    | some (TreeEnt.mk FileMode.m040000 _ EType.tree (GitObj.tree es)) =>
      absentThroughTrees es rest
    | _ => false

/-- `linearChain base msg cs`: the commits `cs` form a linear parent chain —
the first commit's sole parent is `base`, each later commit's sole parent is
its predecessor, and every commit carries the message `msg`. -/
def linearChain (base : CommitObj) (msg : String) : List CommitObj → Prop
  | [] => True
  | c :: rest => c.parents = [base] ∧ c.message = msg ∧ linearChain c msg rest

/-! ### Batcher lemmas -/

theorem inGroupsOfAux_nil {α : Type} (f k : Nat) : inGroupsOfAux f ([] : List α) k = [] := by
  cases f <;> rfl

theorem inGroupsOfAux_cons {α : Type} (f : Nat) (a : α) (rest : List α) (k : Nat) (hk : k ≠ 0) :
    inGroupsOfAux (f + 1) (a :: rest) k =
      (a :: rest).take k :: inGroupsOfAux f ((a :: rest).drop k) k := by
  show (if k = 0 then [] else _) = _
  rw [if_neg hk]

theorem inGroupsOfAux_congr {α : Type} :
    ∀ (f1 : Nat) (f2 : Nat) (all : List α) (k : Nat), all.length ≤ f1 → all.length ≤ f2 →
      inGroupsOfAux f1 all k = inGroupsOfAux f2 all k := by
  intro f1
  induction f1 with
  | zero =>
    intro f2 all k h1 _
    have hall : all = [] := List.eq_nil_of_length_eq_zero (by omega)
    subst hall
    rw [inGroupsOfAux_nil, inGroupsOfAux_nil]
  | succ f1 ih =>
    intro f2 all k h1 h2
    cases all with
    | nil => rw [inGroupsOfAux_nil, inGroupsOfAux_nil]
    | cons a rest =>
      simp only [List.length_cons] at h1 h2
      cases f2 with
      | zero => omega
      | succ f2 =>
        by_cases hk : k = 0
        · subst hk
          show (if (0 : Nat) = 0 then [] else _) = (if (0 : Nat) = 0 then [] else _)
          rw [if_pos rfl, if_pos rfl]
        · rw [inGroupsOfAux_cons f1 a rest k hk, inGroupsOfAux_cons f2 a rest k hk]
          refine congrArg _ (ih f2 ((a :: rest).drop k) k ?_ ?_) <;>
            simp only [List.length_drop, List.length_cons] <;> omega

theorem inGroupsOf_nil {α : Type} (k : Nat) : inGroupsOf ([] : List α) k = [] := rfl

theorem inGroupsOf_cons {α : Type} (a : α) (rest : List α) (k : Nat) (hk : k ≠ 0) :
    inGroupsOf (a :: rest) k =
      (a :: rest).take k :: inGroupsOf ((a :: rest).drop k) k := by
  unfold inGroupsOf
  rw [show (a :: rest).length = rest.length + 1 from rfl]
  rw [inGroupsOfAux_cons rest.length a rest k hk]
  refine congrArg _ (inGroupsOfAux_congr _ _ _ _ ?_ ?_) <;>
    simp only [List.length_drop, List.length_cons] <;> omega

theorem inGroupsOfAux_flatten {α : Type} :
    ∀ (f : Nat) (all : List α) (k : Nat), all.length ≤ f → 1 ≤ k →
      (inGroupsOfAux f all k).flatten = all := by
  intro f
  induction f with
  | zero =>
    intro all k h1 _
    have hall : all = [] := List.eq_nil_of_length_eq_zero (by omega)
    subst hall
    rw [inGroupsOfAux_nil]
    rfl
  | succ f ih =>
    intro all k h1 hk
    cases all with
    | nil => rw [inGroupsOfAux_nil]; rfl
    | cons a rest =>
      simp only [List.length_cons] at h1
      rw [inGroupsOfAux_cons f a rest k (by omega), List.flatten_cons]
      rw [ih ((a :: rest).drop k) k
        (by simp only [List.length_drop, List.length_cons]; omega) hk]
      exact List.take_append_drop k (a :: rest)

theorem inGroupsOf_flatten {α : Type} (all : List α) (k : Nat) (hk : 1 ≤ k) :
    (inGroupsOf all k).flatten = all :=
  inGroupsOfAux_flatten all.length all k (le_refl _) hk

theorem ceil_div_step (n k : Nat) (hn : 1 ≤ n) (hk : 1 ≤ k) :
    (n + k - 1) / k = (n - k + k - 1) / k + 1 := by
  have e1 : n + k - 1 = (n - 1) + k := by omega
  rw [e1, Nat.add_div_right _ (by omega : 0 < k)]
  rcases le_or_lt n k with h | h
  · have h0 : n - k = 0 := by omega
    rw [h0]
    rw [Nat.div_eq_of_lt (by omega : 0 + k - 1 < k), Nat.div_eq_of_lt (by omega : n - 1 < k)]
  · rw [show n - k + k - 1 = n - 1 by omega]

theorem inGroupsOfAux_length {α : Type} :
    ∀ (f : Nat) (all : List α) (k : Nat), all.length ≤ f → 1 ≤ k →
      (inGroupsOfAux f all k).length = (all.length + k - 1) / k := by
  intro f
  induction f with
  | zero =>
    intro all k h1 hk
    have hall : all = [] := List.eq_nil_of_length_eq_zero (by omega)
    subst hall
    rw [inGroupsOfAux_nil]
    simp [Nat.div_eq_of_lt (by omega : k - 1 < k)]
  | succ f ih =>
    intro all k h1 hk
    cases all with
    | nil =>
      rw [inGroupsOfAux_nil]
      simp [Nat.div_eq_of_lt (by omega : k - 1 < k)]
    | cons a rest =>
      simp only [List.length_cons] at h1
      rw [inGroupsOfAux_cons f a rest k (by omega), List.length_cons]
      rw [ih ((a :: rest).drop k) k
        (by simp only [List.length_drop, List.length_cons]; omega) hk]
      rw [List.length_drop]
      exact (ceil_div_step (a :: rest).length k (by simp) hk).symm

theorem inGroupsOf_length {α : Type} (all : List α) (k : Nat) (hk : 1 ≤ k) :
    (inGroupsOf all k).length = (all.length + k - 1) / k :=
  inGroupsOfAux_length all.length all k (le_refl _) hk

theorem inGroupsOfAux_sizes {α : Type} :
    ∀ (f : Nat) (all : List α) (k : Nat), all.length ≤ f →
      ∀ g ∈ inGroupsOfAux f all k, g.length ≤ k := by
  intro f
  induction f with
  | zero =>
    intro all k h1 g hg
    have hall : all = [] := List.eq_nil_of_length_eq_zero (by omega)
    subst hall
    rw [inGroupsOfAux_nil] at hg
    simp at hg
  | succ f ih =>
    intro all k h1 g hg
    cases all with
    | nil => rw [inGroupsOfAux_nil] at hg; simp at hg
    | cons a rest =>
      simp only [List.length_cons] at h1
      by_cases hk : k = 0
      · subst hk
        have hz : inGroupsOfAux (f + 1) (a :: rest) 0 = [] := by
          show (if (0 : Nat) = 0 then [] else _) = []
          rw [if_pos rfl]
        rw [hz] at hg
        simp at hg
      · rw [inGroupsOfAux_cons f a rest k hk] at hg
        rcases List.mem_cons.mp hg with h | h
        · subst h
          simp [List.length_take]
        · exact ih ((a :: rest).drop k) k
            (by simp only [List.length_drop, List.length_cons]; omega) g h

theorem inGroupsOf_sizes {α : Type} (all : List α) (k : Nat) :
    ∀ g ∈ inGroupsOf all k, g.length ≤ k :=
  inGroupsOfAux_sizes all.length all k (le_refl _)

theorem inGroupsOfAux_nonlast_full {α : Type} :
    ∀ (f : Nat) (all : List α) (k : Nat), all.length ≤ f → 1 ≤ k →
      ∀ i, i + 1 < (inGroupsOfAux f all k).length →
        ((inGroupsOfAux f all k).getD i []).length = k := by
  intro f
  induction f with
  | zero =>
    intro all k h1 hk i hnext
    have hall : all = [] := List.eq_nil_of_length_eq_zero (by omega)
    subst hall
    rw [inGroupsOfAux_nil] at hnext
    simp at hnext
  | succ f ih =>
    intro all k h1 hk i hnext
    cases all with
    | nil =>
      rw [inGroupsOfAux_nil] at hnext
      simp at hnext
    | cons a rest =>
      simp only [List.length_cons] at h1
      rw [inGroupsOfAux_cons f a rest k (by omega)] at hnext ⊢
      cases i with
      | zero =>
        rw [List.getD_cons_zero]
        have hgs : inGroupsOfAux f ((a :: rest).drop k) k ≠ [] := by
          intro hnil
          rw [hnil] at hnext
          simp at hnext
        have hne : (a :: rest).drop k ≠ [] := by
          intro hnil
          exact hgs (by rw [hnil, inGroupsOfAux_nil])
        have hlt : k < (a :: rest).length := by
          by_contra hge
          exact hne (List.drop_eq_nil_of_le (by omega))
        simp only [List.length_cons] at hlt
        simp only [List.length_take, List.length_cons]
        omega
      | succ i =>
        rw [List.getD_cons_succ]
        refine ih ((a :: rest).drop k) k
          (by simp only [List.length_drop, List.length_cons]; omega) hk i ?_
        simp only [List.length_cons] at hnext
        omega

theorem inGroupsOf_nonlast_full {α : Type} (all : List α) (k : Nat) (hk : 1 ≤ k) :
    ∀ i, i + 1 < (inGroupsOf all k).length →
      ((inGroupsOf all k).getD i []).length = k :=
  inGroupsOfAux_nonlast_full all.length all k (le_refl _) hk

/-! ### Listing lemmas: how `upsert`, `removeAt` and `subTreeAt` at the
`findIndex` position interact with name lookup -/

theorem findIndex_cons (a : TreeEnt) (as : List TreeEnt) (part : String) :
    findIndex part (a :: as) =
      if a.path = part then some 0
      else Option.map (fun i => i + 1) (findIndex part as) := rfl

theorem upsert_cons_shift (a : TreeEnt) (as : List TreeEnt) (idx : Option Nat) (e2 : TreeEnt) :
    upsert (a :: as) (Option.map (fun i => i + 1) idx) e2 = a :: upsert as idx e2 := by
  cases idx <;> rfl

theorem removeAt_cons_shift (a : TreeEnt) (as : List TreeEnt) (idx : Option Nat) :
    removeAt (a :: as) (Option.map (fun i => i + 1) idx) = a :: removeAt as idx := by
  cases idx <;> rfl

theorem subTreeAt_cons_shift (a : TreeEnt) (as : List TreeEnt) (idx : Option Nat) :
    subTreeAt (a :: as) (Option.map (fun i => i + 1) idx) = subTreeAt as idx := by
  cases idx <;> rfl

theorem lookupName_upsert_ne :
    ∀ (cur : List TreeEnt) (part q : String) (e2 : TreeEnt), q ≠ part → e2.path = part →
      lookupName (upsert cur (findIndex part cur) e2) q = lookupName cur q := by
  intro cur
  induction cur with
  | nil =>
    intro part q e2 hq he
    show lookupName [e2] q = lookupName [] q
    show (if e2.path = q then some e2 else lookupName [] q) = lookupName [] q
    rw [if_neg (by rw [he]; exact fun h => hq h.symm)]
  | cons a as ih =>
    intro part q e2 hq he
    rw [findIndex_cons]
    by_cases ha : a.path = part
    · rw [if_pos ha]
      show lookupName (e2 :: as) q = lookupName (a :: as) q
      show (if e2.path = q then some e2 else lookupName as q) =
        (if a.path = q then some a else lookupName as q)
      rw [if_neg (by rw [he]; exact fun h => hq h.symm),
        if_neg (by rw [ha]; exact fun h => hq h.symm)]
    · rw [if_neg ha, upsert_cons_shift]
      show (if a.path = q then some a else lookupName (upsert as (findIndex part as) e2) q) = _
      by_cases haq : a.path = q
      · rw [if_pos haq]
        show _ = (if a.path = q then some a else lookupName as q)
        rw [if_pos haq]
      · rw [if_neg haq]
        show _ = (if a.path = q then some a else lookupName as q)
        rw [if_neg haq]
        exact ih part q e2 hq he

theorem lookupName_upsert_self :
    ∀ (cur : List TreeEnt) (part : String) (e2 : TreeEnt), e2.path = part →
      lookupName (upsert cur (findIndex part cur) e2) part = some e2 := by
  intro cur
  induction cur with
  | nil =>
    intro part e2 he
    show (if e2.path = part then some e2 else lookupName [] part) = some e2
    rw [if_pos he]
  | cons a as ih =>
    intro part e2 he
    rw [findIndex_cons]
    by_cases ha : a.path = part
    · rw [if_pos ha]
      show (if e2.path = part then some e2 else lookupName as part) = some e2
      rw [if_pos he]
    · rw [if_neg ha, upsert_cons_shift]
      show (if a.path = part then some a
        else lookupName (upsert as (findIndex part as) e2) part) = some e2
      rw [if_neg ha]
      exact ih part e2 he

theorem lookupName_removeAt_ne :
    ∀ (cur : List TreeEnt) (part q : String), q ≠ part →
      lookupName (removeAt cur (findIndex part cur)) q = lookupName cur q := by
  intro cur
  induction cur with
  | nil => intro part q _; rfl
  | cons a as ih =>
    intro part q hq
    rw [findIndex_cons]
    by_cases ha : a.path = part
    · rw [if_pos ha]
      show lookupName as q = (if a.path = q then some a else lookupName as q)
      rw [if_neg (by rw [ha]; exact fun h => hq h.symm)]
    · rw [if_neg ha, removeAt_cons_shift]
      show (if a.path = q then some a else lookupName (removeAt as (findIndex part as)) q) =
        (if a.path = q then some a else lookupName as q)
      by_cases haq : a.path = q
      · rw [if_pos haq, if_pos haq]
      · rw [if_neg haq, if_neg haq]
        exact ih part q hq

theorem subTreeAt_eq_childListing :
    ∀ (cur : List TreeEnt) (part : String),
      subTreeAt cur (findIndex part cur) = childListing cur part := by
  intro cur
  induction cur with
  | nil => intro part; rfl
  | cons a as ih =>
    intro part
    rw [findIndex_cons]
    by_cases ha : a.path = part
    · rw [if_pos ha]
      show (if a.type = EType.tree then objEntries a.obj else []) = childListing (a :: as) part
      unfold childListing
      show _ = (match (if a.path = part then some a else lookupName as part) with
        | some e => if e.type = EType.tree then objEntries e.obj else []
        | none => [])
      rw [if_pos ha]
    · rw [if_neg ha, subTreeAt_cons_shift, ih part]
      unfold childListing
      show _ = (match (if a.path = part then some a else lookupName as part) with
        | some e => if e.type = EType.tree then objEntries e.obj else []
        | none => [])
      rw [if_neg ha]

/-! ### Unfolding equations for the tree builder and `readPath` -/

theorem updateTree_nil (cur : List TreeEnt) (fd : TreeObject) :
    updateTreeRecursively cur [] fd = .ok cur := rfl

theorem updateTree_leaf (cur : List TreeEnt) (part : String) (fd : TreeObject) :
    updateTreeRecursively cur [part] fd =
      match fd.content with
      | .undef => .error TreeErr.bufferFromUndefined
      | .null => .ok (removeAt cur (findIndex part cur))
      | .str s =>
        .ok (upsert cur (findIndex part cur)
          (TreeEnt.mk fd.mode part EType.blob (GitObj.blob s))) := rfl

theorem updateTree_dir (cur : List TreeEnt) (part p2 : String) (rest : List String)
    (fd : TreeObject) :
    updateTreeRecursively cur (part :: p2 :: rest) fd =
      match updateTreeRecursively (subTreeAt cur (findIndex part cur)) (p2 :: rest) fd with
      | .error e => .error e
      | .ok u =>
        .ok (upsert cur (findIndex part cur)
          (TreeEnt.mk FileMode.m040000 part EType.tree (GitObj.tree u))) := rfl

theorem readPath_nil_es : ∀ (p : List String), readPath [] p = none := by
  intro p
  cases p with
  | nil => rfl
  | cons n rest => cases rest <;> rfl

theorem readPath_one (es : List TreeEnt) (q : String) :
    readPath es [q] = lookupName es q := rfl

theorem readPath_deep (es : List TreeEnt) (q s : String) (ss : List String) :
    readPath es (q :: s :: ss) =
      match lookupName es q with
      | some e => if e.type = EType.tree then readPath (objEntries e.obj) (s :: ss) else none
      | none => none := rfl

theorem readPath_congr_lookup (es1 es2 : List TreeEnt) (q : String) (ps : List String)
    (h : lookupName es1 q = lookupName es2 q) :
    readPath es1 (q :: ps) = readPath es2 (q :: ps) := by
  cases ps with
  | nil => rw [readPath_one, readPath_one, h]
  | cons s ss => rw [readPath_deep, readPath_deep, h]

/-! ### The frame property of the tree builder -/

theorem updateTree_frame_aux :
    ∀ (parts : List String) (fd : TreeObject) (cur res : List TreeEnt) (p : List String),
      updateTreeRecursively cur parts fd = .ok res →
      touches parts p = false →
      readPath res p = readPath cur p := by
  intro parts
  induction parts with
  | nil =>
    intro fd cur res p _ ht
    simp [touches, leadsInto] at ht
  | cons part remaining ih =>
    intro fd cur res p h ht
    cases p with
    | nil =>
      rw [show touches (part :: remaining) [] = (leadsInto (part :: remaining) [] || true) from rfl] at ht
      simp at ht
    | cons q ps =>
      by_cases hq : q = part
      · subst hq
        have ht2 : leadsInto remaining ps = false ∧ leadsInto ps remaining = false := by
          rw [show touches (q :: remaining) (q :: ps) =
            ((q == q && leadsInto remaining ps) || (q == q && leadsInto ps remaining)) from rfl] at ht
          simpa using ht
        cases remaining with
        | nil =>
          exfalso
          have : leadsInto ([] : List String) ps = true := rfl
          rw [this] at ht2
          exact absurd ht2.1 (by simp)
        | cons r rs =>
          rw [updateTree_dir] at h
          cases hrec : updateTreeRecursively (subTreeAt cur (findIndex q cur)) (r :: rs) fd with
          | error e =>
            rw [hrec] at h
            exact absurd h (by simp)
          | ok u =>
            rw [hrec] at h
            have h2 : Except.ok (ε := TreeErr)
                (upsert cur (findIndex q cur)
                  (TreeEnt.mk FileMode.m040000 q EType.tree (GitObj.tree u))) = .ok res := h
            have hres : res = upsert cur (findIndex q cur)
                (TreeEnt.mk FileMode.m040000 q EType.tree (GitObj.tree u)) := by
              injection h2 with h3
              exact h3.symm
            subst hres
            cases ps with
            | nil =>
              exfalso
              have : leadsInto ([] : List String) (r :: rs) = true := rfl
              rw [this] at ht2
              exact absurd ht2.2 (by simp)
            | cons s ss =>
              have htouch : touches (r :: rs) (s :: ss) = false := by
                unfold touches
                rw [ht2.1, ht2.2]
                rfl
              have hIH := ih fd (subTreeAt cur (findIndex q cur)) u (s :: ss) hrec htouch
              rw [subTreeAt_eq_childListing] at hIH
              rw [readPath_deep,
                lookupName_upsert_self cur q
                  (TreeEnt.mk FileMode.m040000 q EType.tree (GitObj.tree u)) rfl]
              show (if EType.tree = EType.tree
                then readPath (objEntries (GitObj.tree u)) (s :: ss) else none) = _
              rw [if_pos rfl]
              show readPath u (s :: ss) = _
              rw [hIH]
              rw [readPath_deep]
              unfold childListing
              cases hl : lookupName cur q with
              | none =>
                show readPath ([] : List TreeEnt) (s :: ss) = (none : Option TreeEnt)
                exact readPath_nil_es _
              | some e =>
                show readPath (if e.type = EType.tree then objEntries e.obj else []) (s :: ss) =
                  (if e.type = EType.tree then readPath (objEntries e.obj) (s :: ss) else none)
                by_cases htype : e.type = EType.tree
                · rw [if_pos htype, if_pos htype]
                · rw [if_neg htype, if_neg htype, readPath_nil_es]
      · cases remaining with
        | nil =>
          rw [updateTree_leaf] at h
          cases hc : fd.content with
          | undef =>
            rw [hc] at h
            exact absurd h (by simp)
          | null =>
            rw [hc] at h
            have h2 : Except.ok (ε := TreeErr) (removeAt cur (findIndex part cur)) = .ok res := h
            have hres : res = removeAt cur (findIndex part cur) := by
              injection h2 with h3
              exact h3.symm
            subst hres
            exact readPath_congr_lookup _ _ q ps (lookupName_removeAt_ne cur part q hq)
          | str s =>
            rw [hc] at h
            have h2 : Except.ok (ε := TreeErr)
                (upsert cur (findIndex part cur)
                  (TreeEnt.mk fd.mode part EType.blob (GitObj.blob s))) = .ok res := h
            have hres : res = upsert cur (findIndex part cur)
                (TreeEnt.mk fd.mode part EType.blob (GitObj.blob s)) := by
              injection h2 with h3
              exact h3.symm
            subst hres
            exact readPath_congr_lookup _ _ q ps
              (lookupName_upsert_ne cur part q
                (TreeEnt.mk fd.mode part EType.blob (GitObj.blob s)) hq rfl)
        | cons r rs =>
          rw [updateTree_dir] at h
          cases hrec : updateTreeRecursively (subTreeAt cur (findIndex part cur)) (r :: rs) fd with
          | error e =>
            rw [hrec] at h
            exact absurd h (by simp)
          | ok u =>
            rw [hrec] at h
            have h2 : Except.ok (ε := TreeErr)
                (upsert cur (findIndex part cur)
                  (TreeEnt.mk FileMode.m040000 part EType.tree (GitObj.tree u))) = .ok res := h
            have hres : res = upsert cur (findIndex part cur)
                (TreeEnt.mk FileMode.m040000 part EType.tree (GitObj.tree u)) := by
              injection h2 with h3
              exact h3.symm
            subst hres
            exact readPath_congr_lookup _ _ q ps
              (lookupName_upsert_ne cur part q
                (TreeEnt.mk FileMode.m040000 part EType.tree (GitObj.tree u)) hq rfl)

theorem applyChanges_frame_aux :
    ∀ (objs : List TreeObject) (base res : List TreeEnt) (p : List String),
      applyChanges base objs = .ok res →
      (∀ o ∈ objs, touches (splitPath o.path) p = false) →
      readPath res p = readPath base p := by
  intro objs
  induction objs with
  | nil =>
    intro base res p h _
    have h2 : Except.ok (ε := TreeErr) base = .ok res := h
    have hres : res = base := by
      injection h2 with h3
      exact h3.symm
    subst hres
    rfl
  | cons o rest ih =>
    intro base res p h hunt
    show readPath res p = readPath base p
    rw [show applyChanges base (o :: rest) =
      (match updateTreeRecursively base (splitPath o.path) o with
       | .error e => .error e
       | .ok next => applyChanges next rest) from rfl] at h
    cases hstep : updateTreeRecursively base (splitPath o.path) o with
    | error e =>
      rw [hstep] at h
      exact absurd h (by simp)
    | ok next =>
      rw [hstep] at h
      have hrest : applyChanges next rest = .ok res := h
      rw [ih next res p hrest (fun x hx => hunt x (List.mem_cons_of_mem o hx))]
      exact updateTree_frame_aux (splitPath o.path) o base next p hstep
        (hunt o (List.mem_cons_self o rest))

/-! ### Overwriting a freshly upserted entry at the same name -/

theorem upsert_upsert_self :
    ∀ (cur : List TreeEnt) (part : String) (e1 e2 : TreeEnt), e1.path = part →
      upsert (upsert cur (findIndex part cur) e1)
        (findIndex part (upsert cur (findIndex part cur) e1)) e2 =
      upsert cur (findIndex part cur) e2 := by
  intro cur
  induction cur with
  | nil =>
    intro part e1 e2 he
    show upsert [e1] (findIndex part [e1]) e2 = [e2]
    rw [show findIndex part [e1] = some 0 from by rw [findIndex_cons, if_pos he]]
    rfl
  | cons a as ih =>
    intro part e1 e2 he
    rw [findIndex_cons]
    by_cases ha : a.path = part
    · rw [if_pos ha]
      show upsert (e1 :: as) (findIndex part (e1 :: as)) e2 = e2 :: as
      rw [show findIndex part (e1 :: as) = some 0 from by rw [findIndex_cons, if_pos he]]
      rfl
    · rw [if_neg ha, upsert_cons_shift]
      rw [show findIndex part (a :: upsert as (findIndex part as) e1) =
        Option.map (fun i => i + 1) (findIndex part (upsert as (findIndex part as) e1)) from by
          rw [findIndex_cons, if_neg ha]]
      rw [upsert_cons_shift, upsert_cons_shift]
      rw [ih part e1 e2 he]

theorem subTreeAt_upsert_self (cur : List TreeEnt) (part : String) (e1 : TreeEnt)
    (he : e1.path = part) (ht : e1.type = EType.tree) :
    subTreeAt (upsert cur (findIndex part cur) e1)
      (findIndex part (upsert cur (findIndex part cur) e1)) = objEntries e1.obj := by
  rw [subTreeAt_eq_childListing]
  unfold childListing
  rw [lookupName_upsert_self cur part e1 he]
  show (if e1.type = EType.tree then objEntries e1.obj else []) = objEntries e1.obj
  rw [if_pos ht]

theorem updateTree_str_ok :
    ∀ (parts : List String) (cur : List TreeEnt) (fd : TreeObject) (s : String),
      fd.content = JsContent.str s →
      ∃ r, updateTreeRecursively cur parts fd = .ok r := by
  intro parts
  induction parts with
  | nil => intro cur fd s _; exact ⟨cur, updateTree_nil cur fd⟩
  | cons part remaining ih =>
    intro cur fd s hc
    cases remaining with
    | nil =>
      exact ⟨upsert cur (findIndex part cur) (TreeEnt.mk fd.mode part EType.blob (GitObj.blob s)),
        by rw [updateTree_leaf, hc]⟩
    | cons r rs =>
      obtain ⟨u, hu⟩ := ih (subTreeAt cur (findIndex part cur)) fd s hc
      exact ⟨upsert cur (findIndex part cur)
          (TreeEnt.mk FileMode.m040000 part EType.tree (GitObj.tree u)),
        by rw [updateTree_dir, hu]⟩

theorem updateTree_twice :
    ∀ (parts : List String) (c1 c2 : TreeObject) (s1 s2 : String) (cur r1 : List TreeEnt),
      c1.content = JsContent.str s1 → c2.content = JsContent.str s2 →
      updateTreeRecursively cur parts c1 = .ok r1 →
      updateTreeRecursively r1 parts c2 = updateTreeRecursively cur parts c2 := by
  intro parts
  induction parts with
  | nil =>
    intro c1 c2 s1 s2 cur r1 _ _ hr
    have h2 : Except.ok (ε := TreeErr) cur = .ok r1 := hr
    have hres : r1 = cur := by
      injection h2 with h3
      exact h3.symm
    subst hres
    rfl
  | cons part remaining ih =>
    intro c1 c2 s1 s2 cur r1 h1 h2 hr
    cases remaining with
    | nil =>
      rw [updateTree_leaf, h1] at hr
      have h3 : Except.ok (ε := TreeErr)
          (upsert cur (findIndex part cur)
            (TreeEnt.mk c1.mode part EType.blob (GitObj.blob s1))) = .ok r1 := hr
      have hres : r1 = upsert cur (findIndex part cur)
          (TreeEnt.mk c1.mode part EType.blob (GitObj.blob s1)) := by
        injection h3 with h4
        exact h4.symm
      subst hres
      rw [updateTree_leaf, updateTree_leaf, h2]
      exact congrArg Except.ok
        (upsert_upsert_self cur part
          (TreeEnt.mk c1.mode part EType.blob (GitObj.blob s1))
          (TreeEnt.mk c2.mode part EType.blob (GitObj.blob s2)) rfl)
    | cons r rs =>
      rw [updateTree_dir] at hr
      cases hrec : updateTreeRecursively (subTreeAt cur (findIndex part cur)) (r :: rs) c1 with
      | error e =>
        rw [hrec] at hr
        exact absurd hr (by simp)
      | ok u =>
        rw [hrec] at hr
        have h3 : Except.ok (ε := TreeErr)
            (upsert cur (findIndex part cur)
              (TreeEnt.mk FileMode.m040000 part EType.tree (GitObj.tree u))) = .ok r1 := hr
        have hres : r1 = upsert cur (findIndex part cur)
            (TreeEnt.mk FileMode.m040000 part EType.tree (GitObj.tree u)) := by
          injection h3 with h4
          exact h4.symm
        subst hres
        rw [updateTree_dir, updateTree_dir]
        rw [subTreeAt_upsert_self cur part
          (TreeEnt.mk FileMode.m040000 part EType.tree (GitObj.tree u)) rfl rfl]
        show (match updateTreeRecursively u (r :: rs) c2 with
          | .error e => Except.error e
          | .ok u2 => .ok (upsert (upsert cur (findIndex part cur)
              (TreeEnt.mk FileMode.m040000 part EType.tree (GitObj.tree u)))
              (findIndex part (upsert cur (findIndex part cur)
                (TreeEnt.mk FileMode.m040000 part EType.tree (GitObj.tree u))))
              (TreeEnt.mk FileMode.m040000 part EType.tree (GitObj.tree u2)))) = _
        rw [ih c1 c2 s1 s2 (subTreeAt cur (findIndex part cur)) u h1 h2 hrec]
        cases hrec2 : updateTreeRecursively (subTreeAt cur (findIndex part cur)) (r :: rs) c2 with
        | error e => rfl
        | ok u2 =>
          show Except.ok _ = Except.ok _
          exact congrArg Except.ok
            (upsert_upsert_self cur part
              (TreeEnt.mk FileMode.m040000 part EType.tree (GitObj.tree u))
              (TreeEnt.mk FileMode.m040000 part EType.tree (GitObj.tree u2)) rfl)

/-! ### Commit-loop lemmas -/

theorem commitLoop_nil (refHead : CommitObj) (msg : String) :
    commitLoop refHead [] msg = .ok ([], refHead) := rfl

theorem commitLoop_cons (refHead : CommitObj) (g : List TreeObject)
    (rest : List (List TreeObject)) (msg : String) :
    commitLoop refHead (g :: rest) msg =
      match createTree refHead g with
      | .error e => .error e
      | .ok treeSha =>
        match commitLoop (createCommit refHead treeSha msg) rest msg with
        | .error e => .error e
        | .ok (cs, final) => .ok (createCommit refHead treeSha msg :: cs, final) := rfl

theorem createTree_error_isTreeStep :
    ∀ (refHead : CommitObj) (g : List TreeObject) (e : CPErr),
      createTree refHead g = .error e → CPErr.isTreeStep e = true := by
  intro refHead g e h
  unfold createTree at h
  cases happ : applyChanges refHead.tree g with
  | error e2 =>
    rw [happ] at h
    have h2 : Except.error (α := List TreeEnt) (CPErr.treeStep e2) = .error e := h
    injection h2 with h3
    rw [← h3]
    rfl
  | ok t =>
    rw [happ] at h
    have h2 : Except.ok (ε := CPErr) t = .error e := h
    exact absurd h2 (by simp)

theorem commitLoop_error_isTreeStep :
    ∀ (groups : List (List TreeObject)) (refHead : CommitObj) (msg : String) (e : CPErr),
      commitLoop refHead groups msg = .error e → CPErr.isTreeStep e = true := by
  intro groups
  induction groups with
  | nil =>
    intro refHead msg e h
    have h2 : Except.ok (ε := CPErr) (([] : List CommitObj), refHead) = .error e := h
    exact absurd h2 (by simp)
  | cons g rest ih =>
    intro refHead msg e h
    rw [commitLoop_cons] at h
    cases hct : createTree refHead g with
    | error e0 =>
      rw [hct] at h
      have h2 : Except.error (α := List CommitObj × CommitObj) e0 = .error e := h
      injection h2 with h3
      rw [← h3]
      exact createTree_error_isTreeStep refHead g e0 hct
    | ok treeSha =>
      rw [hct] at h
      have h1 : (match commitLoop (createCommit refHead treeSha msg) rest msg with
        | Except.error e => Except.error e
        | Except.ok (cs, final) =>
          Except.ok (createCommit refHead treeSha msg :: cs, final)) = Except.error e := h
      cases hcl : commitLoop (createCommit refHead treeSha msg) rest msg with
      | error e1 =>
        rw [hcl] at h1
        have h2 : Except.error (α := List CommitObj × CommitObj) e1 = .error e := h1
        injection h2 with h3
        rw [← h3]
        exact ih (createCommit refHead treeSha msg) msg e1 hcl
      | ok pr =>
        obtain ⟨cs, final⟩ := pr
        rw [hcl] at h1
        have h2 : Except.ok (ε := CPErr)
            (createCommit refHead treeSha msg :: cs, final) = .error e := h1
        exact absurd h2 (by simp)

/-! ### Claim theorems -/

/-- C1: for every existing tree and every batch of changes, a successful
`createTree` modifies only the paths touched by the batch — reading the
resulting tree at any path that no change path is an initial run of (and that
is not an initial run of any change path) returns the same entry (name, mode,
kind and content-addressed object, hence the same content at every directory
level) as reading the base commit's tree. -/
theorem createTree_untouched_paths (refHead : CommitObj) (objs : List TreeObject)
    (res : List TreeEnt) (p : List String)
    (hok : createTree refHead objs = .ok res)
    (hunt : ∀ o ∈ objs, touches (splitPath o.path) p = false) :
    readPath res p = readPath refHead.tree p := by
  unfold createTree at hok
  cases happ : applyChanges refHead.tree objs with
  | error e =>
    rw [happ] at hok
    have h2 : Except.error (α := List TreeEnt) (CPErr.treeStep e) = .ok res := hok
    exact absurd h2 (by simp)
  | ok t =>
    rw [happ] at hok
    have h2 : Except.ok (ε := CPErr) t = .ok res := hok
    have ht : t = res := by
      injection h2 with h3
    subst ht
    exact applyChanges_frame_aux objs refHead.tree t p happ hunt

theorem createTree_untouched_paths_witness :
    touches (splitPath "a/b") ["keep"] = false ∧
    readPath
      [TreeEnt.mk FileMode.m100644 "keep" EType.blob (GitObj.blob "k"),
        TreeEnt.mk FileMode.m040000 "a" EType.tree
          (GitObj.tree [TreeEnt.mk FileMode.m100644 "b" EType.blob (GitObj.blob "new")])]
      ["keep"] =
    readPath
      (CommitObj.node
        [TreeEnt.mk FileMode.m100644 "keep" EType.blob (GitObj.blob "k"),
          TreeEnt.mk FileMode.m040000 "a" EType.tree
            (GitObj.tree [TreeEnt.mk FileMode.m100644 "b" EType.blob (GitObj.blob "old")])]
        [] "base").tree
      ["keep"] :=
  ⟨rfl,
    createTree_untouched_paths
      (CommitObj.node
        [TreeEnt.mk FileMode.m100644 "keep" EType.blob (GitObj.blob "k"),
          TreeEnt.mk FileMode.m040000 "a" EType.tree
            (GitObj.tree [TreeEnt.mk FileMode.m100644 "b" EType.blob (GitObj.blob "old")])]
        [] "base")
      (generateTreeObjects [("a/b", FileData.mk FileMode.m100644 (some "new"))])
      [TreeEnt.mk FileMode.m100644 "keep" EType.blob (GitObj.blob "k"),
        TreeEnt.mk FileMode.m040000 "a" EType.tree
          (GitObj.tree [TreeEnt.mk FileMode.m100644 "b" EType.blob (GitObj.blob "new")])]
      ["keep"] rfl (by decide)⟩

/-- C2 counterexample: the change set `{x ↦ "top", x/y ↦ "inner"}` (exactly
as `generateTreeObjects` emits it) does NOT raise any path-conflict error —
the build succeeds, and the blob entry `x` is silently replaced by a
directory entry `x` containing only `y` (the file content "top" is
discarded).  There is no `PathConflictError` anywhere in the code. -/
theorem path_conflict_silent_cex :
    applyChanges [] (generateTreeObjects
      [("x", FileData.mk FileMode.m100644 (some "top")),
        ("x/y", FileData.mk FileMode.m100644 (some "inner"))]) =
      .ok [TreeEnt.mk FileMode.m040000 "x" EType.tree
        (GitObj.tree [TreeEnt.mk FileMode.m100644 "y" EType.blob (GitObj.blob "inner")])] ∧
    (applyChanges [] (generateTreeObjects
      [("x", FileData.mk FileMode.m100644 (some "top")),
        ("x/y", FileData.mk FileMode.m100644 (some "inner"))])).isOk = true :=
  ⟨rfl, rfl⟩

/-- C2 amended: when an intermediate path segment names an existing entry
that is not of kind `tree`, the builder does not fail; it recurses from the
empty listing and replaces the existing (blob) entry with a freshly built
tree entry at that name, silently discarding the blob. -/
theorem blob_collision_overwrites (cur : List TreeEnt) (part p2 : String)
    (rest : List String) (fd : TreeObject) (e : TreeEnt) (sub : List TreeEnt)
    (hl : lookupName cur part = some e)
    (hne : e.type ≠ EType.tree)
    (hrec : updateTreeRecursively [] (p2 :: rest) fd = .ok sub) :
    updateTreeRecursively cur (part :: p2 :: rest) fd =
      .ok (upsert cur (findIndex part cur)
        (TreeEnt.mk FileMode.m040000 part EType.tree (GitObj.tree sub))) := by
  rw [updateTree_dir]
  have hsub : subTreeAt cur (findIndex part cur) = [] := by
    rw [subTreeAt_eq_childListing]
    unfold childListing
    rw [hl]
    show (if e.type = EType.tree then objEntries e.obj else []) = []
    rw [if_neg hne]
  rw [hsub, hrec]

theorem blob_collision_overwrites_witness :
    lookupName [TreeEnt.mk FileMode.m100644 "x" EType.blob (GitObj.blob "top")] "x" =
      some (TreeEnt.mk FileMode.m100644 "x" EType.blob (GitObj.blob "top")) ∧
    (TreeEnt.mk FileMode.m100644 "x" EType.blob (GitObj.blob "top")).type ≠ EType.tree ∧
    updateTreeRecursively [] ["y"]
      (TreeObject.mk "x/y" FileMode.m100644 EType.blob none (JsContent.str "inner")) =
      .ok [TreeEnt.mk FileMode.m100644 "y" EType.blob (GitObj.blob "inner")] ∧
    updateTreeRecursively [TreeEnt.mk FileMode.m100644 "x" EType.blob (GitObj.blob "top")]
      ["x", "y"]
      (TreeObject.mk "x/y" FileMode.m100644 EType.blob none (JsContent.str "inner")) =
      .ok (upsert [TreeEnt.mk FileMode.m100644 "x" EType.blob (GitObj.blob "top")]
        (findIndex "x" [TreeEnt.mk FileMode.m100644 "x" EType.blob (GitObj.blob "top")])
        (TreeEnt.mk FileMode.m040000 "x" EType.tree
          (GitObj.tree [TreeEnt.mk FileMode.m100644 "y" EType.blob (GitObj.blob "inner")]))) :=
  ⟨rfl, by decide,
    rfl,
    blob_collision_overwrites
      [TreeEnt.mk FileMode.m100644 "x" EType.blob (GitObj.blob "top")] "x" "y" []
      (TreeObject.mk "x/y" FileMode.m100644 EType.blob none (JsContent.str "inner"))
      (TreeEnt.mk FileMode.m100644 "x" EType.blob (GitObj.blob "top"))
      [TreeEnt.mk FileMode.m100644 "y" EType.blob (GitObj.blob "inner")]
      rfl (by decide) rfl⟩

/-- C3: evaluating the full pipeline on a deletion change.  The change map
`{a ↦ FileData(content = null)}` over a base tree containing blob `a` does
NOT remove the entry: `generateTreeObjects` emits the deletion `TreeObject`
without a `content` property, `updateTreeRecursively`'s `content === null`
test is false for `undefined`, so the builder attempts the blob write with
`Buffer.from(undefined)`, which throws, and `createTree` wraps the failure
into `CommitError("Error adding to tree: …")`. -/
theorem deletion_change_crashes :
    createTree
      (CommitObj.node [TreeEnt.mk FileMode.m100644 "a" EType.blob (GitObj.blob "old")] [] "base")
      (generateTreeObjects [("a", FileData.mk FileMode.m100644 none)]) =
      .error (CPErr.treeStep TreeErr.bufferFromUndefined) := rfl

/-- C4 counterexample: a deletion applied through `updateTreeRecursively`'s
own `content === null` branch at the multi-segment path `a/b`, where `a` does
not exist in the (empty) base tree, is NOT a no-op: the builder creates a new
empty directory entry `a`. -/
theorem delete_missing_path_cex :
    updateTreeRecursively [] ["a", "b"]
      (TreeObject.mk "a/b" FileMode.m100644 EType.blob (some none) JsContent.null) =
      .ok [TreeEnt.mk FileMode.m040000 "a" EType.tree (GitObj.tree [])] ∧
    Except.ok (ε := TreeErr) [TreeEnt.mk FileMode.m040000 "a" EType.tree (GitObj.tree [])] ≠
      .ok ([] : List TreeEnt) :=
  ⟨rfl, by
    intro hcontra
    have h2 : [TreeEnt.mk FileMode.m040000 "a" EType.tree (GitObj.tree [])] =
        ([] : List TreeEnt) := by
      injection hcontra
    exact List.cons_ne_nil _ _ h2⟩

theorem absentThroughTrees_one (cur : List TreeEnt) (n : String) :
    absentThroughTrees cur [n] = (findIndex n cur).isNone := rfl

theorem absentThroughTrees_deep (cur : List TreeEnt) (n r : String) (rs : List String) :
    absentThroughTrees cur (n :: r :: rs) =
      match lookupName cur n with
      | some (TreeEnt.mk FileMode.m040000 _ EType.tree (GitObj.tree es)) =>
        absentThroughTrees es (r :: rs)
      | _ => false := rfl

theorem lookupName_path :
    ∀ (cur : List TreeEnt) (n : String) (e : TreeEnt),
      lookupName cur n = some e → e.path = n := by
  intro cur
  induction cur with
  | nil => intro n e h; exact Option.noConfusion h
  | cons a as ih =>
    intro n e h
    by_cases ha : a.path = n
    · have h2 : some a = some e := by
        rw [show lookupName (a :: as) n =
          (if a.path = n then some a else lookupName as n) from rfl, if_pos ha] at h
        exact h
      injection h2 with h3
      rw [← h3]
      exact ha
    · rw [show lookupName (a :: as) n =
        (if a.path = n then some a else lookupName as n) from rfl, if_neg ha] at h
      exact ih n e h

theorem upsert_findIndex_self :
    ∀ (cur : List TreeEnt) (n : String) (e : TreeEnt),
      lookupName cur n = some e → upsert cur (findIndex n cur) e = cur := by
  intro cur
  induction cur with
  | nil => intro n e h; exact Option.noConfusion h
  | cons a as ih =>
    intro n e h
    rw [findIndex_cons]
    by_cases ha : a.path = n
    · rw [if_pos ha]
      have h2 : some a = some e := by
        rw [show lookupName (a :: as) n =
          (if a.path = n then some a else lookupName as n) from rfl, if_pos ha] at h
        exact h
      injection h2 with h3
      show (a :: as).set 0 e = a :: as
      rw [← h3]
      rfl
    · rw [if_neg ha, upsert_cons_shift]
      rw [show lookupName (a :: as) n =
        (if a.path = n then some a else lookupName as n) from rfl, if_neg ha] at h
      rw [ih n e h]

theorem absentThroughTrees_deep_elim (cur : List TreeEnt) (n r : String) (rs : List String)
    (h : absentThroughTrees cur (n :: r :: rs) = true) :
    ∃ es, lookupName cur n =
        some (TreeEnt.mk FileMode.m040000 n EType.tree (GitObj.tree es)) ∧
      absentThroughTrees es (r :: rs) = true := by
  rw [absentThroughTrees_deep] at h
  cases hl : lookupName cur n with
  | none =>
    rw [hl] at h
    exact absurd h Bool.false_ne_true
  | some e =>
    rw [hl] at h
    have hpath : e.path = n := lookupName_path cur n e hl
    cases e with
    | mk mode path type obj =>
      have hp2 : path = n := hpath
      subst hp2
      cases mode <;> cases type <;> cases obj <;>
        first
          | exact ⟨_, rfl, h⟩
          | exact absurd h Bool.false_ne_true

/-- C4 amended: a `null`-content deletion (the branch the full pipeline never
reaches — a pipeline deletion fails instead, see C3) at a path that does not
exist in the tree is an exact no-op whenever every intermediate segment of
the path resolves to an existing directory entry (mode `'040000'`, kind
`tree`, holding a tree object) with the final segment absent at the bottom:
each intermediate entry is rewritten to an identical entry, so the listing
is returned unchanged.  When an intermediate segment is missing the builder
instead creates new empty directory entries (see the counterexample); when
it names a non-tree entry, the entry is overwritten by a directory. -/
theorem delete_nonexistent_noop :
    ∀ (parts : List String) (cur : List TreeEnt) (fd : TreeObject),
      fd.content = JsContent.null →
      absentThroughTrees cur parts = true →
      updateTreeRecursively cur parts fd = .ok cur := by
  intro parts
  induction parts with
  | nil => intro cur fd _ _; exact updateTree_nil cur fd
  | cons n rest ih =>
    intro cur fd hc habs
    cases rest with
    | nil =>
      rw [updateTree_leaf, hc]
      show Except.ok (removeAt cur (findIndex n cur)) = .ok cur
      rw [absentThroughTrees_one] at habs
      rw [Option.isNone_iff_eq_none.mp habs]
      rfl
    | cons r rs =>
      obtain ⟨es, hl, habs2⟩ := absentThroughTrees_deep_elim cur n r rs habs
      rw [updateTree_dir]
      have hsub : subTreeAt cur (findIndex n cur) = es := by
        rw [subTreeAt_eq_childListing]
        unfold childListing
        rw [hl]
        rfl
      rw [hsub, ih es fd hc habs2]
      show Except.ok (upsert cur (findIndex n cur)
        (TreeEnt.mk FileMode.m040000 n EType.tree (GitObj.tree es))) = .ok cur
      rw [upsert_findIndex_self cur n
        (TreeEnt.mk FileMode.m040000 n EType.tree (GitObj.tree es)) hl]

theorem delete_nonexistent_noop_witness :
    (TreeObject.mk "a/b" FileMode.m100644 EType.blob (some none) JsContent.null).content =
      JsContent.null ∧
    absentThroughTrees
      [TreeEnt.mk FileMode.m040000 "a" EType.tree
        (GitObj.tree [TreeEnt.mk FileMode.m100644 "c" EType.blob (GitObj.blob "v")])]
      ["a", "b"] = true ∧
    updateTreeRecursively
      [TreeEnt.mk FileMode.m040000 "a" EType.tree
        (GitObj.tree [TreeEnt.mk FileMode.m100644 "c" EType.blob (GitObj.blob "v")])]
      ["a", "b"]
      (TreeObject.mk "a/b" FileMode.m100644 EType.blob (some none) JsContent.null) =
      .ok [TreeEnt.mk FileMode.m040000 "a" EType.tree
        (GitObj.tree [TreeEnt.mk FileMode.m100644 "c" EType.blob (GitObj.blob "v")])] :=
  ⟨rfl, rfl,
    delete_nonexistent_noop ["a", "b"]
      [TreeEnt.mk FileMode.m040000 "a" EType.tree
        (GitObj.tree [TreeEnt.mk FileMode.m100644 "c" EType.blob (GitObj.blob "v")])]
      (TreeObject.mk "a/b" FileMode.m100644 EType.blob (some none) JsContent.null)
      rfl rfl⟩

/-- C5: for every input and every positive group size, `inGroupsOf` yields
exactly ⌈len/groupSize⌉ groups whose concatenation is the input in order,
every group has size at most groupSize and every non-last group has size
exactly groupSize; the default group size (used by `commitAndPush` when the
caller supplies none) is the constant 100. -/
theorem batcher_partition_spec {α : Type} (all : List α) (groupSize : Nat)
    (hk : 1 ≤ groupSize) :
    (inGroupsOf all groupSize).length = (all.length + groupSize - 1) / groupSize ∧
    (inGroupsOf all groupSize).flatten = all ∧
    (∀ g ∈ inGroupsOf all groupSize, g.length ≤ groupSize) ∧
    (∀ i, i + 1 < (inGroupsOf all groupSize).length →
      ((inGroupsOf all groupSize).getD i []).length = groupSize) ∧
    DEFAULT_FILES_PER_COMMIT = 100 ∧
    (∀ (st : RefState) (refHead : CommitObj) (changes : List (String × FileData))
      (originBranch commitMessage : String) (force : Bool),
      commitAndPush st refHead changes originBranch commitMessage force none =
        commitAndPush st refHead changes originBranch commitMessage force (some 100)) :=
  ⟨inGroupsOf_length all groupSize hk, inGroupsOf_flatten all groupSize hk,
    inGroupsOf_sizes all groupSize, inGroupsOf_nonlast_full all groupSize hk,
    rfl, fun _ _ _ _ _ _ => rfl⟩

theorem batcher_partition_spec_witness :
    1 ≤ 2 ∧
    ((inGroupsOf [10, 20, 30] 2).length = ([10, 20, 30].length + 2 - 1) / 2 ∧
      (inGroupsOf [10, 20, 30] 2).flatten = [10, 20, 30] ∧
      (∀ g ∈ inGroupsOf [10, 20, 30] 2, g.length ≤ 2) ∧
      (∀ i, i + 1 < (inGroupsOf [10, 20, 30] 2).length →
        ((inGroupsOf [10, 20, 30] 2).getD i []).length = 2) ∧
      DEFAULT_FILES_PER_COMMIT = 100 ∧
      (∀ (st : RefState) (refHead : CommitObj) (changes : List (String × FileData))
        (originBranch commitMessage : String) (force : Bool),
        commitAndPush st refHead changes originBranch commitMessage force none =
          commitAndPush st refHead changes originBranch commitMessage force (some 100))) :=
  ⟨by decide, batcher_partition_spec [10, 20, 30] 2 (by decide)⟩

/-- C6: a successful run of the commit loop over k batches creates exactly k
commits forming a linear chain — the first commit's sole parent is the
supplied base head, each later commit's sole parent is its predecessor, every
commit carries the same message, and the final head is the last commit (or
the base when there is no batch). -/
theorem commit_chain_linear :
    ∀ (groups : List (List TreeObject)) (base : CommitObj) (msg : String)
      (chain : List CommitObj) (final : CommitObj),
      commitLoop base groups msg = .ok (chain, final) →
      chain.length = groups.length ∧ linearChain base msg chain ∧
        final = chain.getLastD base := by
  intro groups
  induction groups with
  | nil =>
    intro base msg chain final h
    have h2 : Except.ok (ε := CPErr) (([] : List CommitObj), base) = .ok (chain, final) := h
    injection h2 with h3
    injection h3 with h4 h5
    subst h4
    subst h5
    exact ⟨rfl, trivial, rfl⟩
  | cons g rest ih =>
    intro base msg chain final h
    rw [commitLoop_cons] at h
    cases hct : createTree base g with
    | error e =>
      rw [hct] at h
      have h2 : Except.error (α := List CommitObj × CommitObj) e = .ok (chain, final) := h
      exact absurd h2 (by simp)
    | ok treeSha =>
      rw [hct] at h
      have h1 : (match commitLoop (createCommit base treeSha msg) rest msg with
        | Except.error e => Except.error e
        | Except.ok (cs, final) =>
          Except.ok (createCommit base treeSha msg :: cs, final)) = Except.ok (chain, final) := h
      cases hcl : commitLoop (createCommit base treeSha msg) rest msg with
      | error e =>
        rw [hcl] at h1
        have h2 : Except.error (α := List CommitObj × CommitObj) e = .ok (chain, final) := h1
        exact absurd h2 (by simp)
      | ok pr =>
        obtain ⟨cs, fin2⟩ := pr
        rw [hcl] at h1
        have h2 : Except.ok (ε := CPErr)
            (createCommit base treeSha msg :: cs, fin2) = .ok (chain, final) := h1
        injection h2 with h3
        injection h3 with h4 h5
        subst h4
        subst h5
        obtain ⟨hlen, hlin, hfin⟩ := ih (createCommit base treeSha msg) msg cs fin2 hcl
        refine ⟨?_, ⟨rfl, rfl, hlin⟩, ?_⟩
        · rw [List.length_cons, hlen, List.length_cons]
        · rw [List.getLastD_cons]
          exact hfin

theorem commit_chain_linear_witness :
    commitLoop (CommitObj.node [] [] "root")
      [[TreeObject.mk "a" FileMode.m100644 EType.blob none (JsContent.str "1")],
        [TreeObject.mk "b" FileMode.m100644 EType.blob none (JsContent.str "2")]] "m" =
      .ok ([CommitObj.node [TreeEnt.mk FileMode.m100644 "a" EType.blob (GitObj.blob "1")]
          [CommitObj.node [] [] "root"] "m",
        CommitObj.node
          [TreeEnt.mk FileMode.m100644 "a" EType.blob (GitObj.blob "1"),
            TreeEnt.mk FileMode.m100644 "b" EType.blob (GitObj.blob "2")]
          [CommitObj.node [TreeEnt.mk FileMode.m100644 "a" EType.blob (GitObj.blob "1")]
            [CommitObj.node [] [] "root"] "m"] "m"],
        CommitObj.node
          [TreeEnt.mk FileMode.m100644 "a" EType.blob (GitObj.blob "1"),
            TreeEnt.mk FileMode.m100644 "b" EType.blob (GitObj.blob "2")]
          [CommitObj.node [TreeEnt.mk FileMode.m100644 "a" EType.blob (GitObj.blob "1")]
            [CommitObj.node [] [] "root"] "m"] "m") ∧
    ([CommitObj.node [TreeEnt.mk FileMode.m100644 "a" EType.blob (GitObj.blob "1")]
          [CommitObj.node [] [] "root"] "m",
        CommitObj.node
          [TreeEnt.mk FileMode.m100644 "a" EType.blob (GitObj.blob "1"),
            TreeEnt.mk FileMode.m100644 "b" EType.blob (GitObj.blob "2")]
          [CommitObj.node [TreeEnt.mk FileMode.m100644 "a" EType.blob (GitObj.blob "1")]
            [CommitObj.node [] [] "root"] "m"] "m"].length =
      [[TreeObject.mk "a" FileMode.m100644 EType.blob none (JsContent.str "1")],
        [TreeObject.mk "b" FileMode.m100644 EType.blob none (JsContent.str "2")]].length ∧
      linearChain (CommitObj.node [] [] "root") "m"
        [CommitObj.node [TreeEnt.mk FileMode.m100644 "a" EType.blob (GitObj.blob "1")]
            [CommitObj.node [] [] "root"] "m",
          CommitObj.node
            [TreeEnt.mk FileMode.m100644 "a" EType.blob (GitObj.blob "1"),
              TreeEnt.mk FileMode.m100644 "b" EType.blob (GitObj.blob "2")]
            [CommitObj.node [TreeEnt.mk FileMode.m100644 "a" EType.blob (GitObj.blob "1")]
              [CommitObj.node [] [] "root"] "m"] "m"] ∧
      CommitObj.node
          [TreeEnt.mk FileMode.m100644 "a" EType.blob (GitObj.blob "1"),
            TreeEnt.mk FileMode.m100644 "b" EType.blob (GitObj.blob "2")]
          [CommitObj.node [TreeEnt.mk FileMode.m100644 "a" EType.blob (GitObj.blob "1")]
            [CommitObj.node [] [] "root"] "m"] "m" =
        [CommitObj.node [TreeEnt.mk FileMode.m100644 "a" EType.blob (GitObj.blob "1")]
            [CommitObj.node [] [] "root"] "m",
          CommitObj.node
            [TreeEnt.mk FileMode.m100644 "a" EType.blob (GitObj.blob "1"),
              TreeEnt.mk FileMode.m100644 "b" EType.blob (GitObj.blob "2")]
            [CommitObj.node [TreeEnt.mk FileMode.m100644 "a" EType.blob (GitObj.blob "1")]
              [CommitObj.node [] [] "root"] "m"] "m"].getLastD (CommitObj.node [] [] "root")) :=
  ⟨rfl,
    commit_chain_linear
      [[TreeObject.mk "a" FileMode.m100644 EType.blob none (JsContent.str "1")],
        [TreeObject.mk "b" FileMode.m100644 EType.blob none (JsContent.str "2")]]
      (CommitObj.node [] [] "root") "m"
      [CommitObj.node [TreeEnt.mk FileMode.m100644 "a" EType.blob (GitObj.blob "1")]
          [CommitObj.node [] [] "root"] "m",
        CommitObj.node
          [TreeEnt.mk FileMode.m100644 "a" EType.blob (GitObj.blob "1"),
            TreeEnt.mk FileMode.m100644 "b" EType.blob (GitObj.blob "2")]
          [CommitObj.node [TreeEnt.mk FileMode.m100644 "a" EType.blob (GitObj.blob "1")]
            [CommitObj.node [] [] "root"] "m"] "m"]
      (CommitObj.node
        [TreeEnt.mk FileMode.m100644 "a" EType.blob (GitObj.blob "1"),
          TreeEnt.mk FileMode.m100644 "b" EType.blob (GitObj.blob "2")]
        [CommitObj.node [TreeEnt.mk FileMode.m100644 "a" EType.blob (GitObj.blob "1")]
          [CommitObj.node [] [] "root"] "m"] "m")
      rfl⟩

/-- C7: if any batch step of `commitAndPush` fails, the whole operation
aborts with the wrapped error of the failing step (in the deterministic
embedding every batch failure is the tree/blob-write step, wrapped as
`CommitError("Error adding to tree: …")`): the returned remote state is
exactly the pre-call state — the branch reference is not updated and the
transport push is not performed. -/
theorem commitAndPush_failure_frame (st : RefState) (refHead : CommitObj)
    (changes : List (String × FileData)) (originBranch commitMessage : String)
    (force : Bool) (fpc : Option Nat) (e : CPErr)
    (h : (commitAndPush st refHead changes originBranch commitMessage force fpc).2 = .error e) :
    (commitAndPush st refHead changes originBranch commitMessage force fpc).1 = st ∧
    CPErr.isTreeStep e = true := by
  have hmain : commitAndPush st refHead changes originBranch commitMessage force fpc =
      (match commitLoop refHead
          (inGroupsOf (generateTreeObjects changes) (fpc.getD DEFAULT_FILES_PER_COMMIT))
          commitMessage with
        | .error e0 => (st, .error e0)
        | .ok (chain, finalHead) =>
          (gitPush (updateRef st originBranch finalHead force) force, .ok chain)) := rfl
  rw [hmain] at h ⊢
  cases hcl : commitLoop refHead
      (inGroupsOf (generateTreeObjects changes) (fpc.getD DEFAULT_FILES_PER_COMMIT))
      commitMessage with
  | error e0 =>
    rw [hcl] at h
    have h2 : Except.error (α := List CommitObj) e0 = .error e := h
    injection h2 with h3
    subst h3
    exact ⟨rfl, commitLoop_error_isTreeStep _ refHead commitMessage e0 hcl⟩
  | ok pr =>
    obtain ⟨chain, finalHead⟩ := pr
    rw [hcl] at h
    have h2 : Except.ok (ε := CPErr) chain = .error e := h
    exact absurd h2 (by simp)

theorem commitAndPush_failure_frame_witness :
    (commitAndPush (RefState.mk [("feature", CommitObj.node [] [] "old")] 0)
      (CommitObj.node [TreeEnt.mk FileMode.m100644 "a" EType.blob (GitObj.blob "old")] [] "base")
      [("a", FileData.mk FileMode.m100644 none)] "feature" "msg" false none).2 =
      .error (CPErr.treeStep TreeErr.bufferFromUndefined) ∧
    (commitAndPush (RefState.mk [("feature", CommitObj.node [] [] "old")] 0)
      (CommitObj.node [TreeEnt.mk FileMode.m100644 "a" EType.blob (GitObj.blob "old")] [] "base")
      [("a", FileData.mk FileMode.m100644 none)] "feature" "msg" false none).1 =
      RefState.mk [("feature", CommitObj.node [] [] "old")] 0 ∧
    CPErr.isTreeStep (CPErr.treeStep TreeErr.bufferFromUndefined) = true :=
  ⟨rfl,
    (commitAndPush_failure_frame (RefState.mk [("feature", CommitObj.node [] [] "old")] 0)
      (CommitObj.node [TreeEnt.mk FileMode.m100644 "a" EType.blob (GitObj.blob "old")] [] "base")
      [("a", FileData.mk FileMode.m100644 none)] "feature" "msg" false none
      (CPErr.treeStep TreeErr.bufferFromUndefined) rfl).1,
    (commitAndPush_failure_frame (RefState.mk [("feature", CommitObj.node [] [] "old")] 0)
      (CommitObj.node [TreeEnt.mk FileMode.m100644 "a" EType.blob (GitObj.blob "old")] [] "base")
      [("a", FileData.mk FileMode.m100644 none)] "feature" "msg" false none
      (CPErr.treeStep TreeErr.bufferFromUndefined) rfl).2⟩

/-- C9 counterexample: a batch containing two changes at the same path is NOT
always equivalent to applying only the later change: when the earlier change
is a deletion (as `generateTreeObjects` emits it, with the `content` property
absent), the whole batch fails with the `Buffer.from(undefined)` TypeError,
while the later change alone succeeds. -/
theorem later_entry_wins_cex :
    applyChanges []
      [TreeObject.mk "x" FileMode.m100644 EType.blob (some none) JsContent.undef,
        TreeObject.mk "x" FileMode.m100644 EType.blob none (JsContent.str "new")] =
      .error TreeErr.bufferFromUndefined ∧
    applyChanges []
      [TreeObject.mk "x" FileMode.m100644 EType.blob none (JsContent.str "new")] =
      .ok [TreeEnt.mk FileMode.m100644 "x" EType.blob (GitObj.blob "new")] ∧
    Except.error (α := List TreeEnt) TreeErr.bufferFromUndefined ≠
      .ok [TreeEnt.mk FileMode.m100644 "x" EType.blob (GitObj.blob "new")] :=
  ⟨rfl, rfl, fun hcontra => Except.noConfusion hcontra⟩

/-- C9 amended: for two content-carrying changes at the same path, applying
the batch `[c1, c2]` sequentially through the tree-builder fold gives exactly
the same result as applying only the later change `c2` — the later entry
wins.  (With a deletion entry in the batch the whole build instead fails, see
the counterexample and C3.) -/
theorem later_entry_wins (base : List TreeEnt) (c1 c2 : TreeObject) (s1 s2 : String)
    (hp : c1.path = c2.path) (h1 : c1.content = JsContent.str s1)
    (h2 : c2.content = JsContent.str s2) :
    applyChanges base [c1, c2] = applyChanges base [c2] := by
  obtain ⟨r1, hr1⟩ := updateTree_str_ok (splitPath c2.path) base c1 s1 h1
  have e1 : applyChanges base [c1, c2] = applyChanges r1 [c2] := by
    show (match updateTreeRecursively base (splitPath c1.path) c1 with
      | .error e => Except.error e
      | .ok next => applyChanges next [c2]) = applyChanges r1 [c2]
    rw [hp, hr1]
  rw [e1]
  have key := updateTree_twice (splitPath c2.path) c1 c2 s1 s2 base r1 h1 h2 hr1
  show (match updateTreeRecursively r1 (splitPath c2.path) c2 with
    | .error e => Except.error e
    | .ok next => applyChanges next []) =
    (match updateTreeRecursively base (splitPath c2.path) c2 with
    | .error e => Except.error e
    | .ok next => applyChanges next [])
  rw [key]

theorem later_entry_wins_witness :
    (TreeObject.mk "x" FileMode.m100644 EType.blob none (JsContent.str "1")).path =
      (TreeObject.mk "x" FileMode.m100644 EType.blob none (JsContent.str "2")).path ∧
    (TreeObject.mk "x" FileMode.m100644 EType.blob none (JsContent.str "1")).content =
      JsContent.str "1" ∧
    (TreeObject.mk "x" FileMode.m100644 EType.blob none (JsContent.str "2")).content =
      JsContent.str "2" ∧
    applyChanges []
      [TreeObject.mk "x" FileMode.m100644 EType.blob none (JsContent.str "1"),
        TreeObject.mk "x" FileMode.m100644 EType.blob none (JsContent.str "2")] =
      applyChanges [] [TreeObject.mk "x" FileMode.m100644 EType.blob none (JsContent.str "2")] :=
  ⟨rfl, rfl, rfl,
    later_entry_wins []
      (TreeObject.mk "x" FileMode.m100644 EType.blob none (JsContent.str "1"))
      (TreeObject.mk "x" FileMode.m100644 EType.blob none (JsContent.str "2"))
      "1" "2" rfl rfl rfl⟩

/-- C10: on an empty change set `commitAndPush` creates zero commits (the
batch loop yields no group), still updates the branch reference to the
supplied base head, performs the transport push, and succeeds. -/
theorem commitAndPush_empty_changes (st : RefState) (refHead : CommitObj)
    (originBranch commitMessage : String) (force : Bool) (fpc : Option Nat) :
    commitAndPush st refHead [] originBranch commitMessage force fpc =
      (RefState.mk (setRef st.refs originBranch refHead) (st.pushed + 1), .ok []) := rfl

end CodeSuggester
